import Mathlib

/-!
Verification of the exome report generator (src/exome_report.py).

The development embeds the pure core of the program:

- the intronic-proximity classifier check_hgvs_intronic, built on the regex
  pattern of HGVS_INTRON_RE, namely dot-star, then "c.", then a lazy
  nonempty digit run, then a captured sign (minus or plus), then a captured
  greedy nonempty digit run, applied with re.match.  Greedy dot-star does
  not cross a newline and prefers the rightmost feasible start position.
- the record-to-row projection of get_rows, including the rename pre-scan
  over inDB_noTotal, the always-blank fields, the Klasse override, and the
  shared report_row list fed to OrderedDict on every iteration.
- the row filter _filter_line over FILTER_CRITERIAS.
- the write pipeline: the output-target precondition, the sort by the
  (Gene, Consequence, ExAC_TOT) key, the filtered subset, and the tsv and
  igv emitters.

Python float and int parsing of strings are external library calls from the
viewpoint of this file; they are modelled as explicit function parameters
(with the facts about them each theorem needs stated as hypotheses), so
every theorem quantifies over the parser where parsing matters.
-/

namespace ExomeReport

/-! ## Intronic classifier (HGVS_INTRON_RE and check_hgvs_intronic) -/

/-- Numeric value of a list of decimal digit characters, as Python int
reads a digit string (leading zeros allowed). -/
def digitsToNat (l : List Char) : Nat :=
  l.foldl (fun a c => 10 * a + (c.toNat - 48)) 0

/-- Attempt to match the tail of HGVS_INTRON_RE, that is the part after the
dot-star, at the head of the character list: literal "c.", a nonempty digit
run, a sign character (minus or plus), and a nonempty digit run.  The lazy
first digit run followed by a mandatory sign is equivalent to taking the
full digit run and requiring the next character to be a sign; the greedy
second run captures the maximal digit run.  Returns the captured sign and
the numeric value of the captured offset digits. -/
def matchTail (l : List Char) : Option (Char × Nat) :=
  match l with
  | c0 :: c1 :: rest =>
    if c0 = 'c' ∧ c1 = '.' then
      if (rest.takeWhile Char.isDigit).isEmpty then none
      else
        match rest.dropWhile Char.isDigit with
        | sign :: r2 =>
          if sign = '-' ∨ sign = '+' then
            if (r2.takeWhile Char.isDigit).isEmpty then none
            else some (sign, digitsToNat (r2.takeWhile Char.isDigit))
          else none
        | [] => none
    else none
  | _ => none

/-- Semantics of re.match with the greedy dot-star of HGVS_INTRON_RE: the
dot-star consumes any prefix free of newline characters, preferring the
longest one, so the match used is the one starting at the rightmost
feasible position whose prefix contains no newline. -/
def findLast : List Char → Option (Char × Nat)
  | [] => none
  | c :: cs =>
    if c = '\n' then matchTail (c :: cs)
    else
      match findLast cs with
      | some r => some r
      | none => matchTail (c :: cs)

/-- Embedding of ExomeReport.check_hgvs_intronic: run HGVS_INTRON_RE via
re.match; on a match, return whether the captured sign is in the criteria
dict (plus maps to 6, minus maps to 20) and the captured offset exceeds the
threshold of that sign; otherwise return false. -/
def check_hgvs_intronic (hgvs : String) : Bool :=
  match findLast hgvs.data with
  | some (sign, num) =>
    if sign = '+' then decide (6 < num)
    else if sign = '-' then decide (20 < num)
    else false
  | none => false

/-! Specification-side predicates for claim C1, written from the words of
the claim, independently of the code above. -/

/-- A nonempty list of decimal digit characters. -/
def DigitStr (l : List Char) : Prop := l ≠ [] ∧ ∀ c ∈ l, c.isDigit = true

/-- A sign character of the pattern. -/
def SignChar (c : Char) : Prop := c = '-' ∨ c = '+'

/-- The deep-intronic criterion of the claim: sign plus with offset above
6, or sign minus with offset above 20. -/
def SpecCond (sign : Char) (n : Nat) : Prop :=
  (sign = '+' ∧ 6 < n) ∨ (sign = '-' ∧ 20 < n)

/-- Literal reading of claim C1: the string matches (contains an occurrence
of) the pattern "c.", digits, sign, digits, whose sign and offset satisfy
the deep-intronic criterion. -/
def hgvsSpecAny (s : String) : Prop :=
  ∃ pre ds sign ns t, s.data = pre ++ 'c' :: '.' :: (ds ++ sign :: (ns ++ t)) ∧
    DigitStr ds ∧ DigitStr ns ∧ SpecCond sign (digitsToNat ns)

/-- An occurrence of the pattern "c.", digits, sign, digits starts at the
head of the list. -/
def OccAt (u : List Char) : Prop :=
  ∃ ds sign ns t, u = 'c' :: '.' :: (ds ++ sign :: (ns ++ t)) ∧
    DigitStr ds ∧ SignChar sign ∧ DigitStr ns

/-- The list does not start with a digit. -/
def HeadNotDigit (t : List Char) : Prop :=
  ∀ c, t.head? = some c → c.isDigit = false

/-- A full occurrence of the pattern at the head of the list, with the
offset digit run taken maximal, capturing sign and offset value. -/
def MSpec (u : List Char) (sign : Char) (n : Nat) : Prop :=
  ∃ ds ns t, u = 'c' :: '.' :: (ds ++ sign :: (ns ++ t)) ∧
    DigitStr ds ∧ SignChar sign ∧ DigitStr ns ∧ HeadNotDigit t ∧
    n = digitsToNat ns

/-- Amended specification for claim C1: among occurrences of the pattern
whose start is not preceded by any newline character, the classifier is
true iff there is at least one and the last such occurrence (offset digits
taken maximal) satisfies the deep-intronic criterion. -/
def hgvsSpecLast (s : String) : Prop :=
  ∃ pre u sign n, s.data = pre ++ u ∧ '\n' ∉ pre ∧ MSpec u sign n ∧
    (∀ pre' u', s.data = pre' ++ u' → '\n' ∉ pre' →
      u'.length < u.length → ¬ OccAt u') ∧
    SpecCond sign n

/-! ## Records, rows and the get_rows projection -/

/-- Ordered string-to-value mapping (Python OrderedDict or dict), embedded
as an association list looked up by first matching key. -/
def lookupA {α : Type} (ps : List (String × α)) (key : String) : Option α :=
  match ps with
  | [] => none
  | (k, v) :: rest => if k = key then some v else lookupA rest key

/-- A raw variant record as yielded by the VcfReader collaborator: an
ordered mapping from field name to string value. -/
abbrev Record := List (String × String)

/-- The empty_fields list of get_rows: fields always emitted blank. -/
def empty_fields : List String :=
  ["IGV", "ACMG kriterier", "Klasse", "Resultatvurdering kommentar",
   "Kontroll kommentar", "Variantvurdering"]

/-- The fields list of get_rows: the fields to include and their order. -/
def fields : List String :=
  ["CHR", "POS", "REF", "ALT", "Gene", "Inheritance", "HGVSc", "HGVSp",
   "Consequence", "IGV", "ACMG kriterier", "Klasse",
   "Resultatvurdering kommentar", "Kontroll kommentar", "Variantvurdering",
   "Genotype", "ExAC_URL", "HGMD_URL", "AlamutColumn", "inDB_alleleFreq",
   "inDB_noMutInd", "inDB_indications", "sanger_verify", "VCF_FILTER",
   "VCF_QUAL", "VCF_AD_AlleleDepth", "VCF_DP_depth", "ExAC_TOT", "ExAC_NFE",
   "ExAC_FIN", "ExAC_AFR", "ExAC_AMR", "ExAC_EAS", "ExAC_SAS", "ExAC_OTH",
   "1000g", "inDB_genotypeFreq", "inDB_noTotal", "inDB_filter", "dbSNP",
   "repeatMasker"]

/-- The display label written into rename_fields by the pre-scan, namely
the format string applied to the parsed inDB_noTotal count. -/
def renameLabel (n : Int) : String :=
  "inDB_noMutInd (" ++ toString n ++ ")"

/-- Lookup in the rename_fields dict with the field itself as default; the
dict maps exactly the key inDB_noMutInd, to the label lbl. -/
def renameField (lbl : String) (f : String) : String :=
  if f = "inDB_noMutInd" then lbl else f

/-- The pre-scan of get_rows: walk the records, read inDB_noTotal with
default "N/A", and on the first record whose value parses as an int set
the rename label and stop; keep the default label if none parses.  Python
int parsing of a string is passed in as pInt. -/
def computeRename (pInt : String → Option Int) (entries : List Record) : String :=
  match entries.findSome? (fun e => pInt ((lookupA e "inDB_noTotal").getD "N/A")) with
  | some n => renameLabel n
  | none => "inDB_noMutInd"

/-- One field of the projection loop body of get_rows.  The error value is
the name of the missing record field (a Python KeyError). -/
def projectField (lbl : String) (entry : Record) (field : String) :
    Except String (String × String) :=
  if field = "Klasse" then
    match lookupA entry "HGVSc" with
    | none => Except.error "HGVSc"
    | some h =>
      Except.ok (renameField lbl field, if check_hgvs_intronic h then "u" else "")
  else if field ∈ empty_fields then Except.ok (renameField lbl field, "")
  else
    match lookupA entry field with
    | none => Except.error field
    | some v => Except.ok (renameField lbl field, v)

/-- The pairs appended to report_row for one record, in field order. -/
def projectFields (lbl : String) (entry : Record) :
    List String → Except String (List (String × String))
  | [] => Except.ok []
  | f :: fs => do
    let p ← projectField lbl entry f
    let rest ← projectFields lbl entry fs
    pure (p :: rest)

/-- Projection of one record over the full fields list. -/
def projectEntry (lbl : String) (entry : Record) :
    Except String (List (String × String)) :=
  projectFields lbl entry fields

/-- Python dict insertion of one key-value pair into an association list:
an existing key keeps its position and takes the new value, a new key is
appended at the end. -/
def updateOD {α : Type} (ps : List (String × α)) (q : String × α) :
    List (String × α) :=
  match ps with
  | [] => [q]
  | (k, v) :: rest => if k = q.1 then (k, q.2) :: rest else (k, v) :: updateOD rest q

/-- Python OrderedDict built from a list of pairs: keys in order of first
occurrence, each with the value of its last occurrence. -/
def buildOD {α : Type} (ps : List (String × α)) : List (String × α) :=
  ps.foldl updateOD []

/-- Embedding of get_rows: run the rename pre-scan, then fold over the
records, appending the pairs of every record to the single shared
report_row list and yielding OrderedDict(report_row) after each record. -/
def get_rows (pInt : String → Option Int) (entries : List Record) :
    Except String (List (List (String × String))) :=
  (entries.foldlM
    (fun (acc : List (String × String) × List (List (String × String))) e => do
      let ps ← projectEntry (computeRename pInt entries) e
      pure (acc.1 ++ ps, acc.2 ++ [buildOD (acc.1 ++ ps)]))
    ([], [])).map
    (fun (acc : List (String × String) × List (List (String × String))) => acc.2)

/-! ## Report rows as consumed by write

Rows reaching write hold the values passed through from the VcfReader
records; the igv emitter subtracts 1 from the POS value, so row values are
modelled as either strings or integers. -/

/-- A row value: a string, or an integer (as the POS coordinate is). -/
inductive Val where
  | str (s : String)
  | int (n : Int)
deriving DecidableEq

/-- Python str() of a row value. -/
def valStr : Val → String
  | Val.str s => s
  | Val.int n => toString n

/-- A report row as consumed by write. -/
abbrev Line := List (String × Val)

/-- FILTER_CRITERIAS of ExomeReport: field names with their frequency
thresholds (0.05 and 0.01 as exact rationals). -/
def FILTER_CRITERIAS : List (String × ℚ) :=
  [("inDB_alleleFreq", mkRat 5 100), ("ExAC_TOT", mkRat 1 100), ("1000g", mkRat 1 100)]

/-- Loop body of _filter_line for one criterion value: false on the "N/A"
sentinel, false where float(val) raises ValueError (parse returns none,
the value is logged), else the comparison with the threshold. -/
def critBool (parse : Val → Option ℚ) (v : Val) (threshold : ℚ) : Bool :=
  if v = Val.str "N/A" then false
  else
    match parse v with
    | none => false
    | some q => decide (threshold < q)

/-- Embedding of ExomeReport._filter_line.  Python float parsing is the
parameter parse (returning none where float(val) raises ValueError).  The
criteria_check dict is built with dict-update semantics; the result is any
over its values.  The error value is the name of a missing row field. -/
def _filter_line (parse : Val → Option ℚ) (line : Line) : Except String Bool := do
  let checks ← FILTER_CRITERIAS.foldlM
    (fun (acc : List (String × Bool)) nt =>
      match lookupA line nt.1 with
      | none => Except.error nt.1
      | some v => Except.ok (updateOD acc (nt.1, critBool parse v nt.2)))
    []
  pure ((checks.map Prod.snd).any id)

/-- Specification-side reading of one criterion of claim C2: the field
value is not the sentinel, parses as a number, and strictly exceeds the
threshold. -/
def critHolds (parse : Val → Option ℚ) (v : Val) (threshold : ℚ) : Prop :=
  v ≠ Val.str "N/A" ∧ ∃ q, parse v = some q ∧ threshold < q

/-- The sort key of write: the tuple of the Gene, Consequence and ExAC_TOT
row values.  Python compares these as strings and raises on a missing key
or a non-string value; the defaults below are never reached under the
hypotheses of the theorems using this key, which require the three fields
to be present with string values. -/
def keyStr (line : Line) (key : String) : String :=
  match lookupA line key with
  | some (Val.str s) => s
  | some (Val.int n) => toString n
  | none => ""

/-- The three-component sort key of a row. -/
def sortKeyOf (line : Line) : String × String × String :=
  (keyStr line "Gene", keyStr line "Consequence", keyStr line "ExAC_TOT")

/-- Lexicographic order on key triples, as Python compares tuples of
strings.  String comparison goes through the character lists (Python
compares strings lexicographically by code point). -/
def tripLeP (a b : String × String × String) : Prop :=
  a.1.data < b.1.data ∨ (a.1 = b.1 ∧
    (a.2.1.data < b.2.1.data ∨ (a.2.1 = b.2.1 ∧ a.2.2.data ≤ b.2.2.data)))

instance (a b : String × String × String) : Decidable (tripLeP a b) := by
  unfold tripLeP; infer_instance

/-- Row comparison used by the sort of write. -/
def lineLeP (a b : Line) : Prop := tripLeP (sortKeyOf a) (sortKeyOf b)

instance : DecidableRel lineLeP := fun a b => by
  unfold lineLeP; infer_instance

/-- Embedding of sorted(...) in write: a stable ascending sort by the key
triple.  A stable sort is extensionally unique (its output is determined
by being a permutation, sorted, and order-preserving on equal keys), so
insertion sort computes exactly what Python sorted returns. -/
def sortLines (rows : List Line) : List Line := rows.insertionSort lineLeP

/-- The filtered_lines comprehension of write: the rows for which
_filter_line is false, in order; an exception of _filter_line aborts. -/
def filteredOf (parse : Val → Option ℚ) (ls : List Line) :
    Except String (List Line) :=
  ls.foldlM
    (fun acc l => do
      let b ← _filter_line parse l
      pure (if b then acc else acc ++ [l]))
    []

/-- Decidable form of membership in the filtered set: _filter_line
returns false without an exception. -/
def filterKeep (parse : Val → Option ℚ) (l : Line) : Bool :=
  match _filter_line parse l with
  | Except.ok false => true
  | _ => false

/-- Python truthiness of an optional path argument: absent and the empty
string are falsy. -/
def truthy : Option String → Bool
  | none => false
  | some s => !s.isEmpty

/-- The outputs produced by one call of write: whether the excel writer
ran (its content is out of scope), and the full contents written to the
tsv and igv files. -/
structure WriteOut where
  excelDone : Bool
  tsvOut : Option String
  igvOut : Option String
deriving DecidableEq

/-- One line of igv output: the CHR value, POS minus 1, POS, and the Gene
value, each through str(), tab-joined with a trailing newline.  Errors are
a missing key, or POS not being an integer (Python would raise a TypeError
on the subtraction). -/
def igvEntry (line : Line) : Except String String :=
  match lookupA line "CHR" with
  | none => Except.error "CHR"
  | some chr =>
    match lookupA line "POS" with
    | none => Except.error "POS"
    | some (Val.str _) => Except.error "TypeError"
    | some (Val.int n) =>
      match lookupA line "Gene" with
      | none => Except.error "Gene"
      | some gene =>
        Except.ok (valStr chr ++ "\t" ++ valStr (Val.int (n - 1)) ++ "\t" ++
          valStr (Val.int n) ++ "\t" ++ valStr gene ++ "\n")

/-- The tsv emitter of write: a header line of the keys of the first row
(an IndexError on an empty row list), then one line per row with the
values through str(), all tab-joined with trailing newlines. -/
def tsvContent (ls : List Line) : Except String String :=
  match ls with
  | [] => Except.error "IndexError"
  | l0 :: _ =>
    Except.ok (String.intercalate "\t" (l0.map Prod.fst) ++ "\n" ++
      String.join (ls.map
        (fun l => String.intercalate "\t" (l.map (fun p => valStr p.2)) ++ "\n")))

/-- The tsv branch of write: skipped for a falsy target, otherwise the
full tsv file content. -/
def tsvPart (tsv : Option String) (lines : List Line) :
    Except String (Option String) :=
  if truthy tsv then (tsvContent lines).map some
  else pure none

/-- The igv branch of write: skipped for a falsy target, otherwise the
full igv file content (the igv_data lines concatenated). -/
def igvPart (igv : Option String) (filtered : List Line) :
    Except String (Option String) :=
  if truthy igv then (filtered.mapM igvEntry).map (fun ls => some (String.join ls))
  else pure none

/-- Embedding of ExomeReport.write: fail unless an output target is given,
sort the rows, compute the filtered subset, then run the requested
emitters in order (excel, tsv, igv); an exception aborts the rest. -/
def write (parse : Val → Option ℚ) (excel tsv igv : Option String)
    (rows : List Line) : Except String WriteOut :=
  if !(truthy excel || truthy tsv || truthy igv) then
    Except.error "RuntimeError: You must at least provide one output type."
  else
    filteredOf parse (sortLines rows) >>= fun filtered =>
    tsvPart tsv (sortLines rows) >>= fun tsvOut =>
    igvPart igv filtered >>= fun igvOut =>
    pure ⟨truthy excel, tsvOut, igvOut⟩

/-! ## Sample data used by the witness theorems -/

/-- A sample numeric parser standing in for Python float() in witnesses:
it parses the two decimal literals used by the sample rows and any integer
value, and fails on everything else (in particular on "N/A"). -/
def sampleParse : Val → Option ℚ
  | Val.str "0.06" => some (mkRat 6 100)
  | Val.str "0.001" => some (mkRat 1 1000)
  | Val.int n => some (mkRat n 1)
  | _ => none

/-- A sample int parser standing in for Python int() in witnesses; it
fails on "N/A". -/
def sampleParseInt : String → Option Int :=
  fun s => if s = "5" then some 5 else none

/-- A sample report row holding the fields used by filtering, sorting and
the igv emitter; its frequency values put it in the filtered (rare) set. -/
def sampleLine : Line :=
  [("CHR", Val.str "1"), ("POS", Val.int 100), ("Gene", Val.str "A"),
   ("Consequence", Val.str "missense"), ("inDB_alleleFreq", Val.str "0.001"),
   ("ExAC_TOT", Val.str "N/A"), ("1000g", Val.str "garbage")]

/-- Sample row with gene B for the sort example of claim C3. -/
def rowGeneB : Line :=
  [("Gene", Val.str "B"), ("Consequence", Val.str "missense"),
   ("ExAC_TOT", Val.str "0.001"), ("id", Val.str "b")]

/-- First sample row with gene A for the sort example of claim C3. -/
def rowGeneA1 : Line :=
  [("Gene", Val.str "A"), ("Consequence", Val.str "missense"),
   ("ExAC_TOT", Val.str "0.001"), ("id", Val.str "a1")]

/-- Second sample row with gene A for the sort example of claim C3. -/
def rowGeneA2 : Line :=
  [("Gene", Val.str "A"), ("Consequence", Val.str "missense"),
   ("ExAC_TOT", Val.str "0.001"), ("id", Val.str "a2")]

/-- A sample record holding every declared field (each field mapped to its
own name as value). -/
def sampleEntry : Record := fields.map (fun f => (f, f))

/-- The row projected from sampleEntry under the default rename label. -/
def sampleRow : List (String × String) :=
  match projectEntry "inDB_noMutInd" sampleEntry with
  | Except.ok r => r
  | Except.error _ => []

/-- Sample record sequence for the rename pre-scan: the first count value
does not parse, the second parses as 5. -/
def sampleEntries : List Record :=
  [[("inDB_noTotal", "x")], [("inDB_noTotal", "5")], [("inDB_noTotal", "7")]]

/-! ## Lemmas on digit runs -/

theorem takeWhile_app {p : Char → Bool} {a t : List Char}
    (ha : ∀ c ∈ a, p c = true) (ht : ∀ c, t.head? = some c → p c = false) :
    (a ++ t).takeWhile p = a ∧ (a ++ t).dropWhile p = t := by
  induction a with
  | nil =>
    cases t with
    | nil => simp
    | cons c cs =>
      have hc := ht c rfl
      simp [List.takeWhile_cons, List.dropWhile_cons, hc]
  | cons x xs ih =>
    have hx : p x = true := ha x (by simp)
    have ih' := ih (fun c hc => ha c (List.mem_cons_of_mem _ hc))
    simp [List.takeWhile_cons, List.dropWhile_cons, hx, ih'.1, ih'.2]

theorem dropWhile_head_false {p : Char → Bool} (l : List Char) :
    ∀ c, (l.dropWhile p).head? = some c → p c = false := by
  induction l with
  | nil => intro c h; simp at h
  | cons x xs ih =>
    intro c h
    rw [List.dropWhile_cons] at h
    split at h
    · exact ih c h
    · next hx =>
      simp at h hx
      subst h
      exact hx

theorem isEmpty_false_of_ne_nil {l : List Char} (h : l ≠ []) :
    l.isEmpty = false := by
  cases l with
  | nil => exact absurd rfl h
  | cons x xs => rfl

/-! ## Characterisation of matchTail -/

theorem matchTail_eq_some {u : List Char} {sign : Char} {n : Nat} :
    matchTail u = some (sign, n) ↔ MSpec u sign n := by
  constructor
  · intro h
    rw [matchTail.eq_def] at h
    split at h
    · next c0 c1 rest =>
      split at h
      · next hcc =>
        obtain ⟨rfl, rfl⟩ := hcc
        split at h
        · exact absurd h (by simp)
        · next hd1 =>
          split at h
          · next sgn r2 hr1 =>
            split at h
            · next hsgn =>
              split at h
              · exact absurd h (by simp)
              · next hd2 =>
                injection h with h'
                obtain ⟨rfl, rfl⟩ : sgn = sign ∧ digitsToNat (r2.takeWhile Char.isDigit) = n := by
                  constructor
                  · exact congrArg Prod.fst h'
                  · exact congrArg Prod.snd h'
                refine ⟨rest.takeWhile Char.isDigit, r2.takeWhile Char.isDigit,
                  r2.dropWhile Char.isDigit, ?_, ?_, hsgn, ?_, ?_, rfl⟩
                · have h1 : rest.takeWhile Char.isDigit ++ rest.dropWhile Char.isDigit = rest :=
                    List.takeWhile_append_dropWhile _ _
                  have h2 : r2.takeWhile Char.isDigit ++ r2.dropWhile Char.isDigit = r2 :=
                    List.takeWhile_append_dropWhile _ _
                  rw [h2, ← hr1, h1]
                · refine ⟨?_, fun c hc => List.mem_takeWhile_imp hc⟩
                  intro hnil
                  rw [hnil] at hd1
                  exact hd1 rfl
                · refine ⟨?_, fun c hc => List.mem_takeWhile_imp hc⟩
                  intro hnil
                  rw [hnil] at hd2
                  exact hd2 rfl
                · exact dropWhile_head_false r2
            · exact absurd h (by simp)
          · exact absurd h (by simp)
      · exact absurd h (by simp)
    · exact absurd h (by simp)
  · rintro ⟨ds, ns, t, rfl, ⟨hdne, hdall⟩, hsign, ⟨hnne, hnall⟩, hnd, rfl⟩
    have hsd : Char.isDigit sign = false := by
      rcases hsign with h | h <;> subst h <;> decide
    have hw1 := takeWhile_app (p := Char.isDigit) (a := ds) (t := sign :: (ns ++ t))
      hdall (fun c hc => by
        simp only [List.head?] at hc
        injection hc with hc
        subst hc
        exact hsd)
    have hw2 := takeWhile_app (p := Char.isDigit) (a := ns) (t := t) hnall
      (fun c hc => hnd c hc)
    rw [matchTail.eq_def]
    rcases hsign with rfl | rfl <;>
      simp [hw1.1, hw1.2, hw2.1, isEmpty_false_of_ne_nil hdne,
        isEmpty_false_of_ne_nil hnne]

theorem occAt_iff {u : List Char} :
    OccAt u ↔ ∃ sign n, matchTail u = some (sign, n) := by
  constructor
  · rintro ⟨ds, sign, ns, t, rfl, hds, hsign, hns⟩
    refine ⟨sign, digitsToNat (ns ++ t.takeWhile Char.isDigit), ?_⟩
    rw [matchTail_eq_some]
    refine ⟨ds, ns ++ t.takeWhile Char.isDigit, t.dropWhile Char.isDigit,
      ?_, hds, hsign, ?_, ?_, rfl⟩
    · rw [List.append_assoc, List.takeWhile_append_dropWhile]
    · refine ⟨?_, ?_⟩
      · intro hnil
        exact hns.1 (List.append_eq_nil.mp hnil).1
      · intro c hc
        rcases List.mem_append.mp hc with h | h
        · exact hns.2 c h
        · exact List.mem_takeWhile_imp h
    · exact dropWhile_head_false t
  · rintro ⟨sign, n, h⟩
    rw [matchTail_eq_some] at h
    obtain ⟨ds, ns, t, rfl, hds, hsign, hns, _, _⟩ := h
    exact ⟨ds, sign, ns, t, rfl, hds, hsign, hns⟩

theorem not_occAt_iff {u : List Char} : ¬ OccAt u ↔ matchTail u = none := by
  rw [occAt_iff]
  constructor
  · intro hno
    cases h : matchTail u with
    | none => rfl
    | some r => exact absurd ⟨r.1, r.2, by rw [h]⟩ hno
  · rintro hnone ⟨sign, n, hsome⟩
    rw [hnone] at hsome
    exact absurd hsome (by simp)

theorem matchTail_newline (cs : List Char) : matchTail ('\n' :: cs) = none := by
  cases cs with
  | nil => rfl
  | cons c1 rest =>
    have h : ¬ (('\n' : Char) = 'c' ∧ c1 = '.') := by
      rintro ⟨h1, _⟩
      exact absurd h1 (by decide)
    rw [matchTail.eq_def]
    simp [h]

/-! ## Characterisation of findLast (greedy rightmost match, stopped by
newline) -/

theorem findLast_none_iff {s : List Char} :
    findLast s = none ↔
      ∀ pre u, s = pre ++ u → '\n' ∉ pre → matchTail u = none := by
  induction s with
  | nil =>
    constructor
    · intro _ pre u h _
      rcases List.append_eq_nil.mp h.symm with ⟨rfl, rfl⟩
      rfl
    · intro _; rfl
  | cons c cs ih =>
    by_cases hc : c = '\n'
    · subst hc
      have hfl : findLast ('\n' :: cs) = none := by
        rw [findLast, if_pos rfl, matchTail_newline]
      rw [hfl]
      constructor
      · intro _ pre u h hnl
        cases pre with
        | nil =>
          simp only [List.nil_append] at h
          subst h
          exact matchTail_newline cs
        | cons p ps =>
          rw [List.cons_append] at h
          injection h with h1 _
          exact absurd (h1 ▸ List.mem_cons_self p ps) hnl
      · intro _; rfl
    · rw [findLast, if_neg hc]
      cases hcs : findLast cs with
      | some r =>
        constructor
        · intro h; exact absurd h (by simp)
        · intro hR
          exfalso
          have hcs_none : findLast cs = none := by
            rw [ih]
            intro pre u h hnl
            refine hR (c :: pre) u (by rw [h, List.cons_append]) ?_
            intro hmem
            rcases List.mem_cons.mp hmem with h1 | h1
            · exact hc h1.symm
            · exact hnl h1
          rw [hcs_none] at hcs
          exact absurd hcs (by simp)
      | none =>
        constructor
        · intro hm pre u h hnl
          cases pre with
          | nil =>
            simp only [List.nil_append] at h
            subst h
            exact hm
          | cons p ps =>
            rw [List.cons_append] at h
            injection h with h1 h2
            exact (ih.mp hcs) ps u h2
              (fun hmem => hnl (List.mem_cons_of_mem p hmem))
        · intro hR
          exact hR [] (c :: cs) rfl (by simp)

theorem findLast_some_spec {s : List Char} {r : Char × Nat}
    (h : findLast s = some r) :
    ∃ pre u, s = pre ++ u ∧ '\n' ∉ pre ∧ matchTail u = some r ∧
      ∀ pre' u', s = pre' ++ u' → '\n' ∉ pre' → u'.length < u.length →
        matchTail u' = none := by
  induction s with
  | nil => exact absurd h (by simp [findLast])
  | cons c cs ih =>
    rw [findLast] at h
    by_cases hc : c = '\n'
    · rw [if_pos hc] at h
      subst hc
      rw [matchTail_newline] at h
      exact absurd h (by simp)
    · rw [if_neg hc] at h
      cases hcs : findLast cs with
      | some r' =>
        rw [hcs] at h
        injection h with h1
        subst h1
        obtain ⟨pre, u, hsplit, hnl, hm, hmin⟩ := ih hcs
        refine ⟨c :: pre, u, by rw [hsplit, List.cons_append], ?_, hm, ?_⟩
        · intro hmem
          rcases List.mem_cons.mp hmem with h1 | h1
          · exact hc h1.symm
          · exact hnl h1
        · intro pre' u' hs' hnl' hlen
          cases pre' with
          | nil =>
            simp only [List.nil_append] at hs'
            subst hs'
            exfalso
            have hle : u.length ≤ cs.length := by
              rw [hsplit]
              simp
            simp only [List.length_cons] at hlen
            omega
          | cons p ps =>
            rw [List.cons_append] at hs'
            injection hs' with h1 h2
            exact hmin ps u' h2
              (fun hmem => hnl' (List.mem_cons_of_mem p hmem)) hlen
      | none =>
        rw [hcs] at h
        refine ⟨[], c :: cs, rfl, by simp, h, ?_⟩
        intro pre' u' hs' hnl' hlen
        cases pre' with
        | nil =>
          simp only [List.nil_append] at hs'
          subst hs'
          exact absurd hlen (by simp)
        | cons p ps =>
          rw [List.cons_append] at hs'
          injection hs' with h1 h2
          exact (findLast_none_iff.mp hcs) ps u' h2
            (fun hmem => hnl' (List.mem_cons_of_mem p hmem))

theorem findLast_eq_some {s pre u : List Char} {r : Char × Nat}
    (hsplit : s = pre ++ u) (hnl : '\n' ∉ pre) (hm : matchTail u = some r)
    (hmin : ∀ pre' u', s = pre' ++ u' → '\n' ∉ pre' →
      u'.length < u.length → matchTail u' = none) :
    findLast s = some r := by
  cases hf : findLast s with
  | none =>
    have hn := (findLast_none_iff.mp hf) pre u hsplit hnl
    rw [hn] at hm
    exact absurd hm (by simp)
  | some r' =>
    obtain ⟨pre2, u2, hsplit2, hnl2, hm2, hmin2⟩ := findLast_some_spec hf
    have hlen : u.length = u2.length := by
      rcases Nat.lt_trichotomy u.length u2.length with hlt | heq | hgt
      · have h0 := hmin2 pre u hsplit hnl hlt
        rw [h0] at hm
        exact absurd hm (by simp)
      · exact heq
      · have h0 := hmin pre2 u2 hsplit2 hnl2 hgt
        rw [h0] at hm2
        exact absurd hm2 (by simp)
    have happ : pre ++ u = pre2 ++ u2 := hsplit.symm.trans hsplit2
    have hprelen : pre.length = pre2.length := by
      have h0 := congrArg List.length happ
      simp only [List.length_append] at h0
      omega
    obtain ⟨hpe, hue⟩ := List.append_inj happ hprelen
    subst hue
    rw [hm] at hm2
    injection hm2 with h1
    rw [h1]

theorem check_hgvs_intronic_iff (s : String) :
    check_hgvs_intronic s = true ↔ hgvsSpecLast s := by
  unfold check_hgvs_intronic
  cases hf : findLast s.data with
  | none =>
    simp only [Bool.false_eq_true, false_iff]
    rintro ⟨pre, u, sign, n, hsplit, hnl, hmspec, hmin, hcond⟩
    have hm : matchTail u = some (sign, n) := matchTail_eq_some.mpr hmspec
    have hsome : findLast s.data = some (sign, n) :=
      findLast_eq_some hsplit hnl hm
        (fun pre' u' h1 h2 h3 => not_occAt_iff.mp (hmin pre' u' h1 h2 h3))
    rw [hf] at hsome
    exact absurd hsome (by simp)
  | some r =>
    obtain ⟨sign, num⟩ := r
    obtain ⟨pre, u, hsplit, hnl, hm, hmin⟩ := findLast_some_spec hf
    constructor
    · intro h
      have hcond : SpecCond sign num := by
        by_cases h1 : sign = '+'
        · exact Or.inl ⟨h1, by simpa [h1] using h⟩
        · by_cases h2 : sign = '-'
          · exact Or.inr ⟨h2, by simpa [h1, h2] using h⟩
          · simp [h1, h2] at h
      exact ⟨pre, u, sign, num, hsplit, hnl, matchTail_eq_some.mp hm,
        (fun pre' u' h1 h2 h3 => not_occAt_iff.mpr (hmin pre' u' h1 h2 h3)),
        hcond⟩
    · rintro ⟨pre2, u2, sign2, n2, hs2, hnl2, hmspec2, hmin2, hcond2⟩
      have heq : findLast s.data = some (sign2, n2) :=
        findLast_eq_some hs2 hnl2 (matchTail_eq_some.mpr hmspec2)
          (fun pre' u' a b c => not_occAt_iff.mp (hmin2 pre' u' a b c))
      rw [hf] at heq
      injection heq with heq'
      injection heq' with h1 h2
      subst h1
      subst h2
      rcases hcond2 with ⟨hs, hn⟩ | ⟨hs, hn⟩
      · subst hs
        simp [hn]
      · subst hs
        simp [hn]

/-- Claim C1, counterexample.  On the string "c.1+7c.1+1" the claimed
equivalence fails: the string does match the pattern c. digits sign digits
with sign plus and offset 7 exceeding 6 (the occurrence at its head), yet
check_hgvs_intronic returns false, because the greedy dot-star of the regex
selects the rightmost occurrence, whose offset is 1. -/
theorem c1_counterexample :
    ¬ (check_hgvs_intronic "c.1+7c.1+1" = true ↔ hgvsSpecAny "c.1+7c.1+1") := by
  intro h
  have hspec : hgvsSpecAny "c.1+7c.1+1" := by
    refine ⟨[], ['1'], '+', ['7'], ['c', '.', '1', '+', '1'], by decide,
      ⟨by decide, by decide⟩, ⟨by decide, by decide⟩, Or.inl ⟨rfl, by decide⟩⟩
  have hfalse : check_hgvs_intronic "c.1+7c.1+1" = false := by decide
  rw [h.mpr hspec] at hfalse
  exact absurd hfalse (by simp)

/-- Claim C1, amended.  For every string, check_hgvs_intronic returns true
iff the string contains an occurrence of the pattern c. digits sign digits
whose start is not preceded by a newline, and the last such occurrence
(with its offset digit run taken maximal) has sign plus with offset above 6
or sign minus with offset above 20; in particular strings with a single
such occurrence behave exactly as the original claim states, any string
with no such occurrence (including the empty string and strings without
any c. notation) yields false, the function is total, and the four example
strings evaluate as claimed. -/
theorem c1_amended :
    (∀ s : String, check_hgvs_intronic s = true ↔ hgvsSpecLast s) ∧
    check_hgvs_intronic "c.123+6" = false ∧
    check_hgvs_intronic "c.123+7" = true ∧
    check_hgvs_intronic "c.123-20" = false ∧
    check_hgvs_intronic "c.123-21" = true ∧
    check_hgvs_intronic "" = false :=
  ⟨check_hgvs_intronic_iff, by decide, by decide, by decide, by decide,
    by decide⟩

/-! ## Claim C2: the row filter -/

theorem critBool_iff (parse : Val → Option ℚ) (v : Val) (t : ℚ) :
    critBool parse v t = true ↔ critHolds parse v t := by
  unfold critBool critHolds
  by_cases hv : v = Val.str "N/A"
  · simp [hv]
  · simp only [if_neg hv]
    cases hp : parse v with
    | none => simp [hv, hp]
    | some q => simp [hv, hp]

/-- Claim C2: on every row holding the three criteria fields, _filter_line
returns (without an exception) true iff at least one of the three values
is not the "N/A" sentinel, parses as a number, and strictly exceeds its
threshold (0.05 for inDB_alleleFreq, 0.01 for ExAC_TOT and 1000g); a
sentinel or unparseable value makes its criterion false. -/
theorem c2_filter_line (parse : Val → Option ℚ) (line : Line)
    (v1 v2 v3 : Val)
    (h1 : lookupA line "inDB_alleleFreq" = some v1)
    (h2 : lookupA line "ExAC_TOT" = some v2)
    (h3 : lookupA line "1000g" = some v3) :
    ∃ b, _filter_line parse line = Except.ok b ∧
      (b = true ↔ (critHolds parse v1 (mkRat 5 100) ∨ critHolds parse v2 (mkRat 1 100) ∨
        critHolds parse v3 (mkRat 1 100))) := by
  refine ⟨critBool parse v1 (mkRat 5 100) ||
    (critBool parse v2 (mkRat 1 100) || critBool parse v3 (mkRat 1 100)), ?_, ?_⟩
  · unfold _filter_line FILTER_CRITERIAS
    simp only [List.foldlM, h1, h2, h3]
    show Except.ok _ = Except.ok _
    simp [updateOD, List.any]
  · simp [Bool.or_eq_true, critBool_iff]

/-- Witness for claim C2 at a concrete parser and row. -/
theorem c2_witness :
    ∃ b, _filter_line sampleParse sampleLine = Except.ok b ∧
      (b = true ↔ (critHolds sampleParse (Val.str "0.001") (mkRat 5 100) ∨
        critHolds sampleParse (Val.str "N/A") (mkRat 1 100) ∨
        critHolds sampleParse (Val.str "garbage") (mkRat 1 100))) :=
  c2_filter_line sampleParse sampleLine _ _ _ rfl rfl rfl

/-! ## Claim C3: the sort of write -/

theorem tripLeP_trans {a b c : String × String × String}
    (h1 : tripLeP a b) (h2 : tripLeP b c) : tripLeP a c := by
  unfold tripLeP at h1 h2 ⊢
  rcases h1 with h1 | ⟨e1, h1⟩
  · rcases h2 with h2 | ⟨e2, h2⟩
    · exact Or.inl (lt_trans h1 h2)
    · exact Or.inl (lt_of_lt_of_le h1 (le_of_eq (congrArg String.data e2)))
  · rcases h2 with h2 | ⟨e2, h2⟩
    · exact Or.inl (lt_of_le_of_lt (le_of_eq (congrArg String.data e1)) h2)
    · refine Or.inr ⟨e1.trans e2, ?_⟩
      rcases h1 with h1 | ⟨f1, h1⟩
      · rcases h2 with h2 | ⟨f2, h2⟩
        · exact Or.inl (lt_trans h1 h2)
        · exact Or.inl (lt_of_lt_of_le h1 (le_of_eq (congrArg String.data f2)))
      · rcases h2 with h2 | ⟨f2, h2⟩
        · exact Or.inl (lt_of_le_of_lt (le_of_eq (congrArg String.data f1)) h2)
        · exact Or.inr ⟨f1.trans f2, le_trans h1 h2⟩

theorem tripLeP_refl (a : String × String × String) : tripLeP a a :=
  Or.inr ⟨rfl, Or.inr ⟨rfl, le_refl _⟩⟩

theorem tripLeP_total (a b : String × String × String) :
    tripLeP a b ∨ tripLeP b a := by
  unfold tripLeP
  rcases lt_trichotomy a.1.data b.1.data with h | h | h
  · exact Or.inl (Or.inl h)
  · have e : a.1 = b.1 := String.ext h
    rcases lt_trichotomy a.2.1.data b.2.1.data with h2 | h2 | h2
    · exact Or.inl (Or.inr ⟨e, Or.inl h2⟩)
    · have e2 : a.2.1 = b.2.1 := String.ext h2
      rcases le_total a.2.2.data b.2.2.data with h3 | h3
      · exact Or.inl (Or.inr ⟨e, Or.inr ⟨e2, h3⟩⟩)
      · exact Or.inr (Or.inr ⟨e.symm, Or.inr ⟨e2.symm, h3⟩⟩)
    · exact Or.inr (Or.inr ⟨e.symm, Or.inl h2⟩)
  · exact Or.inr (Or.inl h)

instance : IsTrans Line lineLeP := ⟨fun _ _ _ => tripLeP_trans⟩

instance : IsTotal Line lineLeP := ⟨fun _ _ => tripLeP_total _ _⟩

theorem except_bind_ok {γ α β : Type} (a : α) (f : α → Except γ β) :
    (Except.ok a >>= f) = f a := rfl

theorem filterKeep_eq {parse : Val → Option ℚ} {l : Line} {b : Bool}
    (hb : _filter_line parse l = Except.ok b) : filterKeep parse l = !b := by
  unfold filterKeep
  rw [hb]
  cases b <;> rfl

theorem filteredOf_go (parse : Val → Option ℚ) :
    ∀ (ls : List Line) (acc : List Line),
    (∀ l ∈ ls, ∃ b, _filter_line parse l = Except.ok b) →
    List.foldlM
      (fun acc l => do
        let b ← _filter_line parse l
        pure (if b then acc else acc ++ [l])) acc ls
      = Except.ok (acc ++ ls.filter (filterKeep parse)) := by
  intro ls
  induction ls with
  | nil =>
    intro acc _
    simp only [List.foldlM_nil, List.filter_nil, List.append_nil]
    rfl
  | cons l rest ih =>
    intro acc hok
    obtain ⟨b, hb⟩ := hok l (List.mem_cons_self l rest)
    rw [List.foldlM_cons, hb, except_bind_ok]
    rw [show (pure (if b = true then acc else acc ++ [l]) :
        Except String (List Line)) =
      Except.ok (if b = true then acc else acc ++ [l]) from rfl]
    rw [except_bind_ok, List.filter_cons, filterKeep_eq hb]
    have hrest := fun acc' => ih acc' (fun x hx => hok x (List.mem_cons_of_mem l hx))
    cases b with
    | false =>
      simp only [Bool.not_false, if_true, Bool.false_eq_true, if_false]
      rw [hrest (acc ++ [l])]
      simp
    | true =>
      simp only [Bool.not_true, Bool.false_eq_true, if_false, if_true]
      exact hrest acc

theorem filteredOf_spec (parse : Val → Option ℚ) (ls : List Line)
    (hok : ∀ l ∈ ls, ∃ b, _filter_line parse l = Except.ok b) :
    filteredOf parse ls = Except.ok (ls.filter (filterKeep parse)) := by
  have h := filteredOf_go parse ls [] hok
  simpa [filteredOf] using h

theorem sortLines_filter_key (rows : List Line) (k : String × String × String) :
    (sortLines rows).filter (fun l => decide (sortKeyOf l = k)) =
      rows.filter (fun l => decide (sortKeyOf l = k)) := by
  have hperm : (sortLines rows).Perm rows := List.perm_insertionSort _ _
  have hself : (rows.filter (fun l => decide (sortKeyOf l = k))).filter
      (fun l => decide (sortKeyOf l = k)) =
      rows.filter (fun l => decide (sortKeyOf l = k)) :=
    List.filter_eq_self.mpr (fun a ha => (List.mem_filter.mp ha).2)
  have hsub : (rows.filter (fun l => decide (sortKeyOf l = k))).Sublist
      (sortLines rows) := by
    apply List.sublist_insertionSort
    · apply List.pairwise_of_forall_mem_list
      intro a ha b hb
      have hka : sortKeyOf a = k := by
        simpa using (List.mem_filter.mp ha).2
      have hkb : sortKeyOf b = k := by
        simpa using (List.mem_filter.mp hb).2
      unfold lineLeP
      rw [hka, hkb]
      exact tripLeP_refl k
    · exact List.filter_sublist rows
  have hsub2 : (rows.filter (fun l => decide (sortKeyOf l = k))).Sublist
      ((sortLines rows).filter (fun l => decide (sortKeyOf l = k))) := by
    have h1 := List.Sublist.filter (fun l => decide (sortKeyOf l = k)) hsub
    rwa [hself] at h1
  have hlen : (rows.filter (fun l => decide (sortKeyOf l = k))).length =
      ((sortLines rows).filter (fun l => decide (sortKeyOf l = k))).length := by
    have h2 := hperm.countP_eq (fun l => decide (sortKeyOf l = k))
    rw [List.countP_eq_length_filter, List.countP_eq_length_filter] at h2
    omega
  exact (hsub2.eq_of_length hlen).symm

/-- Claim C3: the rows of write are sorted with a stable ascending sort
keyed by the (Gene, Consequence, ExAC_TOT) triple: the sorted list is a
permutation of the input, sorted under the lexicographic key order with
ties broken by consequence then frequency, rows of equal key keep their
relative order, the gene example B A A sorts to A A B, and the filtered
row list is exactly the subsequence of the sorted list on which
_filter_line is false (hence inherits its order). -/
theorem c3_sort (parse : Val → Option ℚ) (rows : List Line)
    (hok : ∀ l ∈ sortLines rows, ∃ b, _filter_line parse l = Except.ok b) :
    (sortLines rows).Perm rows ∧
    List.Sorted lineLeP (sortLines rows) ∧
    (∀ k, (sortLines rows).filter (fun l => decide (sortKeyOf l = k)) =
      rows.filter (fun l => decide (sortKeyOf l = k))) ∧
    filteredOf parse (sortLines rows) =
      Except.ok ((sortLines rows).filter (filterKeep parse)) ∧
    ((sortLines rows).filter (filterKeep parse)).Sublist (sortLines rows) ∧
    sortLines [rowGeneB, rowGeneA1, rowGeneA2] =
      [rowGeneA1, rowGeneA2, rowGeneB] :=
  ⟨List.perm_insertionSort _ _, List.sorted_insertionSort _ _,
   sortLines_filter_key rows, filteredOf_spec parse _ hok,
   List.filter_sublist _, by decide⟩

/-- Witness for claim C3 at a concrete parser and row list. -/
theorem c3_witness :
    (sortLines [sampleLine]).Perm [sampleLine] ∧
    List.Sorted lineLeP (sortLines [sampleLine]) ∧
    (∀ k, (sortLines [sampleLine]).filter (fun l => decide (sortKeyOf l = k)) =
      [sampleLine].filter (fun l => decide (sortKeyOf l = k))) ∧
    filteredOf sampleParse (sortLines [sampleLine]) =
      Except.ok ((sortLines [sampleLine]).filter (filterKeep sampleParse)) ∧
    ((sortLines [sampleLine]).filter (filterKeep sampleParse)).Sublist
      (sortLines [sampleLine]) ∧
    sortLines [rowGeneB, rowGeneA1, rowGeneA2] =
      [rowGeneA1, rowGeneA2, rowGeneB] :=
  c3_sort sampleParse [sampleLine] (by
    intro l hl
    have hl' : l = sampleLine := by
      have hs : sortLines [sampleLine] = [sampleLine] := rfl
      rw [hs] at hl
      simpa using hl
    subst hl'
    exact ⟨false, rfl⟩)

/-! ## Lemmas on the projection of get_rows -/

theorem except_bind_error {γ α β : Type} (e : γ) (f : α → Except γ β) :
    ((Except.error e : Except γ α) >>= f) = Except.error e := rfl

theorem projectFields_cons_ok {lbl : String} {entry : Record} {f : String}
    {fs : List String} {row : List (String × String)}
    (h : projectFields lbl entry (f :: fs) = Except.ok row) :
    ∃ p rest, projectField lbl entry f = Except.ok p ∧
      projectFields lbl entry fs = Except.ok rest ∧ row = p :: rest := by
  rw [projectFields] at h
  cases hp : projectField lbl entry f with
  | error e =>
    rw [hp, except_bind_error] at h
    exact absurd h (by simp)
  | ok p =>
    rw [hp, except_bind_ok] at h
    cases hr : projectFields lbl entry fs with
    | error e =>
      rw [hr, except_bind_error] at h
      exact absurd h (by simp)
    | ok rest =>
      rw [hr, except_bind_ok] at h
      injection h with h'
      exact ⟨p, rest, rfl, rfl, h'.symm⟩

theorem projectFields_append {lbl : String} {entry : Record} :
    ∀ (fs1 fs2 : List String) {row : List (String × String)},
    projectFields lbl entry (fs1 ++ fs2) = Except.ok row →
    ∃ r1 r2, projectFields lbl entry fs1 = Except.ok r1 ∧
      projectFields lbl entry fs2 = Except.ok r2 ∧ row = r1 ++ r2 := by
  intro fs1
  induction fs1 with
  | nil =>
    intro fs2 row h
    exact ⟨[], row, rfl, h, rfl⟩
  | cons f fs ih =>
    intro fs2 row h
    rw [List.cons_append] at h
    obtain ⟨p, rest, hp, hrest, rfl⟩ := projectFields_cons_ok h
    obtain ⟨r1, r2, h1, h2, rfl⟩ := ih fs2 hrest
    refine ⟨p :: r1, r2, ?_, h2, by rw [List.cons_append]⟩
    rw [projectFields, hp, except_bind_ok, h1, except_bind_ok]
    rfl

theorem projectField_fst {lbl : String} {entry : Record} {f : String}
    {p : String × String} (h : projectField lbl entry f = Except.ok p) :
    p.1 = renameField lbl f := by
  unfold projectField at h
  split at h
  · split at h
    · exact absurd h (by simp)
    · injection h with h'
      rw [← h']
  · split at h
    · injection h with h'
      rw [← h']
    · split at h
      · exact absurd h (by simp)
      · injection h with h'
        rw [← h']

theorem projectFields_keys {lbl : String} {entry : Record} :
    ∀ {fs : List String} {row : List (String × String)},
    projectFields lbl entry fs = Except.ok row →
    row.map Prod.fst = fs.map (renameField lbl) := by
  intro fs
  induction fs with
  | nil =>
    intro row h
    injection h with h'
    rw [← h']
    rfl
  | cons f fs ih =>
    intro row h
    obtain ⟨p, rest, hp, hrest, rfl⟩ := projectFields_cons_ok h
    simp only [List.map_cons]
    rw [projectField_fst hp, ih hrest]

theorem lookupA_append_right {α : Type} {r1 : List (String × α)}
    {p : String × α} {r2 : List (String × α)} {key : String}
    (hne : ∀ q ∈ r1, q.1 ≠ key) (hp : p.1 = key) :
    lookupA (r1 ++ p :: r2) key = some p.2 := by
  induction r1 with
  | nil =>
    obtain ⟨k, v⟩ := p
    simp only [List.nil_append, lookupA]
    rw [if_pos hp]
  | cons q qs ih =>
    obtain ⟨k, v⟩ := q
    rw [List.cons_append, lookupA, if_neg (hne (k, v) (by simp))]
    exact ih (fun q hq => hne q (List.mem_cons_of_mem _ hq))

theorem lookup_projectFields {lbl : String} {entry : Record}
    {fs1 fs2 : List String} {f : String} {row : List (String × String)}
    (hok : projectFields lbl entry (fs1 ++ f :: fs2) = Except.ok row)
    (hne : ∀ g ∈ fs1, renameField lbl g ≠ renameField lbl f) :
    ∃ p, projectField lbl entry f = Except.ok p ∧
      lookupA row (renameField lbl f) = some p.2 := by
  obtain ⟨r1, r2, h1, h2, rfl⟩ := projectFields_append fs1 (f :: fs2) hok
  obtain ⟨p, rest, hp, hrest, rfl⟩ := projectFields_cons_ok h2
  refine ⟨p, hp, ?_⟩
  apply lookupA_append_right
  · intro q hq
    have hqmem : q.1 ∈ r1.map Prod.fst := List.mem_map_of_mem _ hq
    rw [projectFields_keys h1] at hqmem
    obtain ⟨g, hg, hgq⟩ := List.mem_map.mp hqmem
    rw [← hgq]
    exact hne g hg
  · exact projectField_fst hp

theorem projectField_klasse {lbl : String} {entry : Record}
    {p : String × String}
    (h : projectField lbl entry "Klasse" = Except.ok p) :
    ∃ hg, lookupA entry "HGVSc" = some hg ∧
      p = ("Klasse", if check_hgvs_intronic hg then "u" else "") := by
  unfold projectField at h
  rw [if_pos rfl] at h
  cases hl : lookupA entry "HGVSc" with
  | none =>
    rw [hl] at h
    exact absurd h (by simp)
  | some hg =>
    rw [hl] at h
    injection h with h'
    exact ⟨hg, rfl, h'.symm⟩

theorem projectField_blank {lbl : String} {entry : Record} {f : String}
    (hf : f ∈ empty_fields) (hfk : ¬ f = "Klasse") {p : String × String}
    (h : projectField lbl entry f = Except.ok p) : p.2 = "" := by
  unfold projectField at h
  rw [if_neg hfk, if_pos hf] at h
  injection h with h'
  rw [← h']

/-! ## Claim C4: the Klasse override and the always-blank fields -/

/-- Claim C4: for every record whose projection succeeds, the projected
row's Klasse field holds u when check_hgvs_intronic applied to the record's
HGVSc value is true and the empty string otherwise, independently of any
raw Klasse value of the record and of Klasse belonging to the always-blank
set; every other field of the always-blank set reads the empty string in
the row regardless of the record's value for it. -/
theorem c4_klasse_blanks (lbl : String) (entry : Record)
    (row : List (String × String))
    (hok : projectEntry lbl entry = Except.ok row) :
    (∃ hg, lookupA entry "HGVSc" = some hg ∧
      lookupA row "Klasse" =
        some (if check_hgvs_intronic hg then "u" else "")) ∧
    (∀ f ∈ empty_fields, f ≠ "Klasse" → lookupA row f = some "") := by
  unfold projectEntry at hok
  constructor
  · have hok' : projectFields lbl entry
        (["CHR", "POS", "REF", "ALT", "Gene", "Inheritance", "HGVSc",
          "HGVSp", "Consequence", "IGV", "ACMG kriterier"] ++
         "Klasse" ::
         ["Resultatvurdering kommentar", "Kontroll kommentar",
           "Variantvurdering", "Genotype", "ExAC_URL", "HGMD_URL",
           "AlamutColumn", "inDB_alleleFreq", "inDB_noMutInd",
           "inDB_indications", "sanger_verify", "VCF_FILTER", "VCF_QUAL",
           "VCF_AD_AlleleDepth", "VCF_DP_depth", "ExAC_TOT", "ExAC_NFE",
           "ExAC_FIN", "ExAC_AFR", "ExAC_AMR", "ExAC_EAS", "ExAC_SAS",
           "ExAC_OTH", "1000g", "inDB_genotypeFreq", "inDB_noTotal",
           "inDB_filter", "dbSNP", "repeatMasker"]) = Except.ok row := hok
    obtain ⟨p, hp, hlook⟩ := lookup_projectFields hok'
      (by intro g hgm; fin_cases hgm <;> simp [renameField])
    obtain ⟨hg, hlg, hpe⟩ := projectField_klasse hp
    refine ⟨hg, hlg, ?_⟩
    have hrn : renameField lbl "Klasse" = "Klasse" := rfl
    rw [hrn, hpe] at hlook
    exact hlook
  · intro f hf hfk
    simp only [empty_fields, List.mem_cons, List.not_mem_nil, or_false] at hf
    rcases hf with rfl | rfl | rfl | rfl | rfl | rfl
    · have hok' : projectFields lbl entry
          (["CHR", "POS", "REF", "ALT", "Gene", "Inheritance", "HGVSc",
            "HGVSp", "Consequence"] ++
           "IGV" ::
           ["ACMG kriterier", "Klasse", "Resultatvurdering kommentar",
             "Kontroll kommentar", "Variantvurdering", "Genotype",
             "ExAC_URL", "HGMD_URL", "AlamutColumn", "inDB_alleleFreq",
             "inDB_noMutInd", "inDB_indications", "sanger_verify",
             "VCF_FILTER", "VCF_QUAL", "VCF_AD_AlleleDepth",
             "VCF_DP_depth", "ExAC_TOT", "ExAC_NFE", "ExAC_FIN",
             "ExAC_AFR", "ExAC_AMR", "ExAC_EAS", "ExAC_SAS", "ExAC_OTH",
             "1000g", "inDB_genotypeFreq", "inDB_noTotal", "inDB_filter",
             "dbSNP", "repeatMasker"]) = Except.ok row := hok
      obtain ⟨p, hp, hlook⟩ := lookup_projectFields hok'
        (by intro g hgm; fin_cases hgm <;> simp [renameField])
      have hb : p.2 = "" := projectField_blank (by decide) (by decide) hp
      have hrn : renameField lbl "IGV" = "IGV" := rfl
      rw [hrn, hb] at hlook
      exact hlook
    · have hok' : projectFields lbl entry
          (["CHR", "POS", "REF", "ALT", "Gene", "Inheritance", "HGVSc",
            "HGVSp", "Consequence", "IGV"] ++
           "ACMG kriterier" ::
           ["Klasse", "Resultatvurdering kommentar", "Kontroll kommentar",
             "Variantvurdering", "Genotype", "ExAC_URL", "HGMD_URL",
             "AlamutColumn", "inDB_alleleFreq", "inDB_noMutInd",
             "inDB_indications", "sanger_verify", "VCF_FILTER", "VCF_QUAL",
             "VCF_AD_AlleleDepth", "VCF_DP_depth", "ExAC_TOT", "ExAC_NFE",
             "ExAC_FIN", "ExAC_AFR", "ExAC_AMR", "ExAC_EAS", "ExAC_SAS",
             "ExAC_OTH", "1000g", "inDB_genotypeFreq", "inDB_noTotal",
             "inDB_filter", "dbSNP", "repeatMasker"]) = Except.ok row := hok
      obtain ⟨p, hp, hlook⟩ := lookup_projectFields hok'
        (by intro g hgm; fin_cases hgm <;> simp [renameField])
      have hb : p.2 = "" := projectField_blank (by decide) (by decide) hp
      have hrn : renameField lbl "ACMG kriterier" = "ACMG kriterier" := rfl
      rw [hrn, hb] at hlook
      exact hlook
    · exact absurd rfl hfk
    · have hok' : projectFields lbl entry
          (["CHR", "POS", "REF", "ALT", "Gene", "Inheritance", "HGVSc",
            "HGVSp", "Consequence", "IGV", "ACMG kriterier", "Klasse"] ++
           "Resultatvurdering kommentar" ::
           ["Kontroll kommentar", "Variantvurdering", "Genotype",
             "ExAC_URL", "HGMD_URL", "AlamutColumn", "inDB_alleleFreq",
             "inDB_noMutInd", "inDB_indications", "sanger_verify",
             "VCF_FILTER", "VCF_QUAL", "VCF_AD_AlleleDepth",
             "VCF_DP_depth", "ExAC_TOT", "ExAC_NFE", "ExAC_FIN",
             "ExAC_AFR", "ExAC_AMR", "ExAC_EAS", "ExAC_SAS", "ExAC_OTH",
             "1000g", "inDB_genotypeFreq", "inDB_noTotal", "inDB_filter",
             "dbSNP", "repeatMasker"]) = Except.ok row := hok
      obtain ⟨p, hp, hlook⟩ := lookup_projectFields hok'
        (by intro g hgm; fin_cases hgm <;> simp [renameField])
      have hb : p.2 = "" := projectField_blank (by decide) (by decide) hp
      have hrn : renameField lbl "Resultatvurdering kommentar" = "Resultatvurdering kommentar" := rfl
      rw [hrn, hb] at hlook
      exact hlook
    · have hok' : projectFields lbl entry
          (["CHR", "POS", "REF", "ALT", "Gene", "Inheritance", "HGVSc",
            "HGVSp", "Consequence", "IGV", "ACMG kriterier", "Klasse",
            "Resultatvurdering kommentar"] ++
           "Kontroll kommentar" ::
           ["Variantvurdering", "Genotype", "ExAC_URL", "HGMD_URL",
             "AlamutColumn", "inDB_alleleFreq", "inDB_noMutInd",
             "inDB_indications", "sanger_verify", "VCF_FILTER", "VCF_QUAL",
             "VCF_AD_AlleleDepth", "VCF_DP_depth", "ExAC_TOT", "ExAC_NFE",
             "ExAC_FIN", "ExAC_AFR", "ExAC_AMR", "ExAC_EAS", "ExAC_SAS",
             "ExAC_OTH", "1000g", "inDB_genotypeFreq", "inDB_noTotal",
             "inDB_filter", "dbSNP", "repeatMasker"]) = Except.ok row := hok
      obtain ⟨p, hp, hlook⟩ := lookup_projectFields hok'
        (by intro g hgm; fin_cases hgm <;> simp [renameField])
      have hb : p.2 = "" := projectField_blank (by decide) (by decide) hp
      have hrn : renameField lbl "Kontroll kommentar" = "Kontroll kommentar" := rfl
      rw [hrn, hb] at hlook
      exact hlook
    · have hok' : projectFields lbl entry
          (["CHR", "POS", "REF", "ALT", "Gene", "Inheritance", "HGVSc",
            "HGVSp", "Consequence", "IGV", "ACMG kriterier", "Klasse",
            "Resultatvurdering kommentar", "Kontroll kommentar"] ++
           "Variantvurdering" ::
           ["Genotype", "ExAC_URL", "HGMD_URL", "AlamutColumn",
             "inDB_alleleFreq", "inDB_noMutInd", "inDB_indications",
             "sanger_verify", "VCF_FILTER", "VCF_QUAL",
             "VCF_AD_AlleleDepth", "VCF_DP_depth", "ExAC_TOT", "ExAC_NFE",
             "ExAC_FIN", "ExAC_AFR", "ExAC_AMR", "ExAC_EAS", "ExAC_SAS",
             "ExAC_OTH", "1000g", "inDB_genotypeFreq", "inDB_noTotal",
             "inDB_filter", "dbSNP", "repeatMasker"]) = Except.ok row := hok
      obtain ⟨p, hp, hlook⟩ := lookup_projectFields hok'
        (by intro g hgm; fin_cases hgm <;> simp [renameField])
      have hb : p.2 = "" := projectField_blank (by decide) (by decide) hp
      have hrn : renameField lbl "Variantvurdering" = "Variantvurdering" := rfl
      rw [hrn, hb] at hlook
      exact hlook

/-- Witness for claim C4 at a concrete record. -/
theorem c4_witness :
    (∃ hg, lookupA sampleEntry "HGVSc" = some hg ∧
      lookupA sampleRow "Klasse" =
        some (if check_hgvs_intronic hg then "u" else "")) ∧
    (∀ f ∈ empty_fields, f ≠ "Klasse" → lookupA sampleRow f = some "") :=
  c4_klasse_blanks "inDB_noMutInd" sampleEntry sampleRow rfl

/-! ## Claim C5: strictness on missing record fields -/

theorem projectField_error_missing {lbl : String} {entry : Record}
    {f g : String} (h : projectField lbl entry f = Except.error g) :
    lookupA entry g = none := by
  unfold projectField at h
  split at h
  · cases hl : lookupA entry "HGVSc" with
    | none =>
      rw [hl] at h
      injection h with h'
      rw [← h']
      exact hl
    | some x =>
      rw [hl] at h
      exact absurd h (by simp)
  · split at h
    · exact absurd h (by simp)
    · cases hl : lookupA entry f with
      | none =>
        rw [hl] at h
        injection h with h'
        rw [← h']
        exact hl
      | some v =>
        rw [hl] at h
        exact absurd h (by simp)

theorem projectFields_error {lbl : String} {entry : Record} :
    ∀ (fs : List String) (f : String),
    f ∈ fs → f ∉ empty_fields → lookupA entry f = none →
    ∃ g, projectFields lbl entry fs = Except.error g ∧
      lookupA entry g = none := by
  intro fs
  induction fs with
  | nil =>
    intro f hf _ _
    exact absurd hf (by simp)
  | cons f0 fs ih =>
    intro f hf hfe hfl
    cases hp : projectField lbl entry f0 with
    | error e =>
      refine ⟨e, ?_, projectField_error_missing hp⟩
      rw [projectFields, hp, except_bind_error]
    | ok p =>
      have hne : f ≠ f0 := by
        rintro rfl
        have hfk : ¬ f = "Klasse" := by
          intro hk
          exact hfe (hk ▸ (by decide : "Klasse" ∈ empty_fields))
        unfold projectField at hp
        rw [if_neg hfk, if_neg hfe, hfl] at hp
        exact absurd hp (by simp)
      have hmem : f ∈ fs := by
        rcases List.mem_cons.mp hf with h | h
        · exact absurd h hne
        · exact h
      obtain ⟨g, hg, hgl⟩ := ih f hmem hfe hfl
      refine ⟨g, ?_, hgl⟩
      rw [projectFields, hp, except_bind_ok, hg, except_bind_error]

/-- Claim C5: projecting a record that lacks a declared field outside the
always-blank set and the classification field (or that lacks HGVSc) fails
with a missing-field error: the result is an error naming a field the
record lacks, never a row with the field dropped or defaulted. -/
theorem c5_missing_field (lbl : String) (entry : Record) (f : String)
    (hcase : (f ∈ fields ∧ f ∉ empty_fields ∧ lookupA entry f = none) ∨
      lookupA entry "HGVSc" = none) :
    ∃ g, projectEntry lbl entry = Except.error g ∧
      lookupA entry g = none := by
  rcases hcase with ⟨hmem, hemp, hnone⟩ | hhg
  · exact projectFields_error fields f hmem hemp hnone
  · exact projectFields_error fields "HGVSc" (by decide) (by decide) hhg

/-- Witness for claim C5 at a concrete record lacking a field. -/
theorem c5_witness :
    ∃ g, projectEntry "inDB_noMutInd" ([] : Record) = Except.error g ∧
      lookupA ([] : Record) g = none :=
  c5_missing_field "inDB_noMutInd" [] "CHR" (Or.inl ⟨by decide, by decide, rfl⟩)

/-! ## Claim C6: dict semantics of the shared report_row list -/

theorem updateOD_absent {α : Type} {acc : List (String × α)} {q : String × α}
    (h : ∀ r ∈ acc, r.1 ≠ q.1) : updateOD acc q = acc ++ [q] := by
  induction acc with
  | nil => rfl
  | cons r rs ih =>
    obtain ⟨k, v⟩ := r
    rw [updateOD, if_neg (h (k, v) (by simp)), List.cons_append,
      ih (fun r hr => h r (List.mem_cons_of_mem _ hr))]

theorem foldl_updateOD_disjoint {α : Type} :
    ∀ (B acc : List (String × α)),
    (∀ r ∈ acc, ∀ q ∈ B, r.1 ≠ q.1) → (B.map Prod.fst).Nodup →
    List.foldl updateOD acc B = acc ++ B := by
  intro B
  induction B with
  | nil => intro acc _ _; simp
  | cons q B' ih =>
    intro acc hdisj hnd
    rw [List.foldl_cons, updateOD_absent (fun r hr => hdisj r hr q (by simp))]
    rw [ih (acc ++ [q]) ?_ (by simpa using hnd.of_cons)]
    · simp
    · intro r hr q' hq'
      rcases List.mem_append.mp hr with h | h
      · exact hdisj r h q' (List.mem_cons_of_mem _ hq')
      · have hrq : r = q := by simpa using h
        subst hrq
        simp only [List.map_cons, List.nodup_cons] at hnd
        intro he
        exact hnd.1 (he ▸ List.mem_map_of_mem Prod.fst hq')

theorem buildOD_self {α : Type} {B : List (String × α)}
    (hnd : (B.map Prod.fst).Nodup) : buildOD B = B := by
  have h := foldl_updateOD_disjoint B [] (by simp) hnd
  simpa [buildOD] using h

theorem updateOD_replace {α : Type} :
    ∀ (pre : List (String × α)) (k : String) (v : α)
      (post : List (String × α)) (v' : α),
    (∀ r ∈ pre, r.1 ≠ k) →
    updateOD (pre ++ (k, v) :: post) (k, v') = pre ++ (k, v') :: post := by
  intro pre
  induction pre with
  | nil => intro k v post v' _; simp [updateOD]
  | cons r rs ih =>
    intro k v post v' h
    obtain ⟨k0, v0⟩ := r
    rw [List.cons_append, updateOD, if_neg (h (k0, v0) (by simp)),
      List.cons_append, ih k v post v' (fun r hr => h r (List.mem_cons_of_mem _ hr))]

theorem foldl_updateOD_replace {α : Type} :
    ∀ (B pre rest : List (String × α)),
    ((pre ++ rest).map Prod.fst).Nodup →
    rest.map Prod.fst = B.map Prod.fst →
    List.foldl updateOD (pre ++ rest) B = pre ++ B := by
  intro B
  induction B with
  | nil =>
    intro pre rest _ hmap
    have : rest = [] := by
      cases rest with
      | nil => rfl
      | cons r rs => simp at hmap
    rw [this]
    simp
  | cons q B' ih =>
    intro pre rest hnd hmap
    obtain ⟨q1, q2⟩ := q
    cases rest with
    | nil => simp at hmap
    | cons r0 rest' =>
      obtain ⟨r01, r02⟩ := r0
      simp only [List.map_cons, List.cons.injEq] at hmap
      obtain ⟨hk, hmap'⟩ := hmap
      subst hk
      have hpre : ∀ r ∈ pre, r.1 ≠ r01 := by
        intro r hr he
        rw [List.map_append] at hnd
        rcases List.nodup_append.mp hnd with ⟨_, _, hdisj⟩
        exact hdisj (he ▸ List.mem_map_of_mem Prod.fst hr)
          (by simp)
      rw [List.foldl_cons, updateOD_replace pre r01 r02 rest' q2 hpre]
      have hstep := ih (pre ++ [(r01, q2)]) rest' ?_ hmap'
      · simp only [List.append_assoc, List.singleton_append] at hstep
        exact hstep
      · have h1 : ((pre ++ [(r01, q2)]) ++ rest').map Prod.fst =
            ((pre ++ (r01, r02) :: rest')).map Prod.fst := by
          simp
        rw [h1]
        exact hnd

theorem buildOD_append {α : Type} (xs B : List (String × α)) :
    buildOD (xs ++ B) = List.foldl updateOD (buildOD xs) B := by
  simp [buildOD, List.foldl_append]

theorem buildOD_blocks {α : Type} {xs B : List (String × α)}
    (hmap : (buildOD xs).map Prod.fst = B.map Prod.fst)
    (hnd : ((buildOD xs).map Prod.fst).Nodup) :
    buildOD (xs ++ B) = B := by
  rw [buildOD_append]
  have h := foldl_updateOD_replace B [] (buildOD xs) (by simpa using hnd) hmap
  simpa using h

theorem renameLabel_take (n : Int) :
    (renameLabel n).data.take 15 = "inDB_noMutInd (".data := by
  unfold renameLabel
  rw [String.data_append, String.data_append, List.append_assoc]
  have h15 : ("inDB_noMutInd (".data).length = 15 := rfl
  rw [← h15, List.take_left]

theorem renameLabel_ne_field {n : Int} {y : String} (hy : y ∈ fields)
    (hne : y ≠ "inDB_noMutInd") : renameLabel n ≠ y := by
  intro he
  have ht := renameLabel_take n
  rw [he] at ht
  have hall : ∀ z ∈ fields, z ≠ "inDB_noMutInd" →
      z.data.take 15 ≠ "inDB_noMutInd (".data := by decide
  exact hall y hy hne ht

theorem computeRename_shape (pInt : String → Option Int)
    (entries : List Record) :
    computeRename pInt entries = "inDB_noMutInd" ∨
      ∃ n, computeRename pInt entries = renameLabel n := by
  unfold computeRename
  cases h : entries.findSome?
      (fun e => pInt ((lookupA e "inDB_noTotal").getD "N/A")) with
  | none => exact Or.inl rfl
  | some n => exact Or.inr ⟨n, rfl⟩

theorem nodup_renamed (lbl : String)
    (hl : lbl = "inDB_noMutInd" ∨ ∃ n : Int, lbl = renameLabel n) :
    (fields.map (renameField lbl)).Nodup := by
  rcases hl with rfl | ⟨n, rfl⟩
  · decide
  · refine List.Nodup.map_on ?_ (by decide)
    intro x hx y hy hxy
    by_cases hxi : x = "inDB_noMutInd" <;> by_cases hyi : y = "inDB_noMutInd"
    · rw [hxi, hyi]
    · exfalso
      rw [renameField, if_pos hxi, renameField, if_neg hyi] at hxy
      exact renameLabel_ne_field hy hyi hxy
    · exfalso
      rw [renameField, if_neg hxi, renameField, if_pos hyi] at hxy
      exact renameLabel_ne_field hx hxi hxy.symm
    · rw [renameField, if_neg hxi, renameField, if_neg hyi] at hxy
      exact hxy

theorem forall₂_mem_right {α β : Type} {R : α → β → Prop} :
    ∀ {as : List α} {bs : List β}, List.Forall₂ R as bs →
    ∀ b ∈ bs, ∃ a, R a b := by
  intro as bs h
  induction h with
  | nil => intro b hb; exact absurd hb (by simp)
  | cons hR hrest ih =>
    intro b hb
    rcases List.mem_cons.mp hb with rfl | hb
    · exact ⟨_, hR⟩
    · exact ih b hb

theorem get_rows_go {lbl : String}
    (hnd : (fields.map (renameField lbl)).Nodup) :
    ∀ (es : List Record) (rr : List (String × String))
      (out : List (List (String × String)))
      (res : List (String × String) × List (List (String × String))),
    (rr = [] ∨ (buildOD rr).map Prod.fst = fields.map (renameField lbl)) →
    List.foldlM
      (fun (acc : List (String × String) × List (List (String × String))) e => do
        let ps ← projectEntry lbl e
        pure (acc.1 ++ ps, acc.2 ++ [buildOD (acc.1 ++ ps)]))
      (rr, out) es = Except.ok res →
    ∃ rows, res.2 = out ++ rows ∧
      List.Forall₂ (fun e row => projectEntry lbl e = Except.ok row) es rows := by
  intro es
  induction es with
  | nil =>
    intro rr out res _ hfold
    rw [List.foldlM_nil] at hfold
    injection hfold with h'
    exact ⟨[], by rw [← h']; simp, List.Forall₂.nil⟩
  | cons e es ih =>
    intro rr out res hinv hfold
    rw [List.foldlM_cons] at hfold
    cases hp : projectEntry lbl e with
    | error err =>
      rw [hp, except_bind_error, except_bind_error] at hfold
      exact absurd hfold (by simp)
    | ok ps =>
      rw [hp, except_bind_ok] at hfold
      rw [show (pure (rr ++ ps, out ++ [buildOD (rr ++ ps)]) :
          Except String
            (List (String × String) × List (List (String × String)))) =
        Except.ok (rr ++ ps, out ++ [buildOD (rr ++ ps)]) from rfl] at hfold
      rw [except_bind_ok] at hfold
      have hkeys : ps.map Prod.fst = fields.map (renameField lbl) :=
        projectFields_keys hp
      have hrow : buildOD (rr ++ ps) = ps := by
        rcases hinv with rfl | hinv
        · rw [List.nil_append]
          exact buildOD_self (by rw [hkeys]; exact hnd)
        · exact buildOD_blocks (by rw [hinv, hkeys]) (by rw [hinv]; exact hnd)
      rw [hrow] at hfold
      have hinv2 : rr ++ ps = [] ∨
          (buildOD (rr ++ ps)).map Prod.fst = fields.map (renameField lbl) :=
        Or.inr (hrow.symm ▸ hkeys)
      obtain ⟨rows, hres, hfa⟩ := ih (rr ++ ps) (out ++ [ps]) res hinv2 hfold
      refine ⟨ps :: rows, ?_, List.Forall₂.cons hp hfa⟩
      rw [hres]
      simp

/-- Claim C6: whenever get_rows succeeds, the yielded rows correspond
one-to-one, in order, to the records, every row equals the projection of
its own record (even though every OrderedDict is built from the one
report_row list shared across iterations), and every row's key sequence is
exactly the declared field list in order with inDB_noMutInd replaced by
the rename label. -/
theorem c6_row_fields (pInt : String → Option Int) (entries : List Record)
    (rows : List (List (String × String)))
    (hok : get_rows pInt entries = Except.ok rows) :
    List.Forall₂ (fun entry row =>
      projectEntry (computeRename pInt entries) entry = Except.ok row)
      entries rows ∧
    ∀ row ∈ rows,
      row.map Prod.fst =
        fields.map (renameField (computeRename pInt entries)) := by
  unfold get_rows at hok
  cases hf : List.foldlM
      (fun (acc : List (String × String) × List (List (String × String))) e => do
        let ps ← projectEntry (computeRename pInt entries) e
        pure (acc.1 ++ ps, acc.2 ++ [buildOD (acc.1 ++ ps)]))
      ([], []) entries with
  | error e =>
    rw [hf] at hok
    exact absurd hok (by simp [Except.map])
  | ok res =>
    rw [hf] at hok
    rw [show (Except.ok res).map
        (fun (acc : List (String × String) ×
          List (List (String × String))) => acc.2) =
      Except.ok res.2 from rfl] at hok
    injection hok with h'
    have hnd := nodup_renamed _ (computeRename_shape pInt entries)
    obtain ⟨rows', hres, hfa⟩ :=
      get_rows_go hnd entries [] [] res (Or.inl rfl) hf
    have hrr : rows = rows' := by
      rw [← h', hres]
      simp
    subst hrr
    refine ⟨hfa, ?_⟩
    intro row hrow
    obtain ⟨e, he⟩ := forall₂_mem_right hfa row hrow
    exact projectFields_keys he

/-- Witness for claim C6 at a concrete record sequence. -/
theorem c6_witness :
    List.Forall₂ (fun entry row =>
      projectEntry (computeRename sampleParseInt [sampleEntry, sampleEntry])
        entry = Except.ok row)
      [sampleEntry, sampleEntry] [sampleRow, sampleRow] ∧
    ∀ row ∈ [sampleRow, sampleRow],
      row.map Prod.fst =
        fields.map
          (renameField (computeRename sampleParseInt [sampleEntry, sampleEntry])) :=
  c6_row_fields sampleParseInt [sampleEntry, sampleEntry]
    [sampleRow, sampleRow] rfl

/-! ## Claim C7: the rename pre-scan -/

theorem getD_bind_eq {pInt : String → Option Int} (hNA : pInt "N/A" = none)
    (e : Record) :
    pInt ((lookupA e "inDB_noTotal").getD "N/A") =
      (lookupA e "inDB_noTotal").bind pInt := by
  cases h : lookupA e "inDB_noTotal" with
  | none => simpa using hNA
  | some v => rfl

/-- Claim C7: after the pre-scan, either some record is the first whose
inDB_noTotal value parses as an integer n (all records before it, those
lacking the field included, fail to parse) and the display label becomes
inDB_noMutInd followed by n in parentheses, or no record parses and the
label keeps the unmodified default inDB_noMutInd.  Python int parsing is
the parameter pInt, required to fail on the missing-field default "N/A". -/
theorem c7_rename (pInt : String → Option Int) (entries : List Record)
    (hNA : pInt "N/A" = none) :
    (∃ pre e post n, entries = pre ++ e :: post ∧
      (∀ e' ∈ pre, (lookupA e' "inDB_noTotal").bind pInt = none) ∧
      (lookupA e "inDB_noTotal").bind pInt = some n ∧
      computeRename pInt entries =
        "inDB_noMutInd (" ++ toString n ++ ")") ∨
    ((∀ e ∈ entries, (lookupA e "inDB_noTotal").bind pInt = none) ∧
      computeRename pInt entries = "inDB_noMutInd") := by
  induction entries with
  | nil =>
    right
    exact ⟨by simp, rfl⟩
  | cons e es ih =>
    cases he : (lookupA e "inDB_noTotal").bind pInt with
    | some n =>
      left
      refine ⟨[], e, es, n, rfl, by simp, he, ?_⟩
      unfold computeRename
      rw [List.findSome?_cons, getD_bind_eq hNA e, he]
      rfl
    | none =>
      have hstep : computeRename pInt (e :: es) = computeRename pInt es := by
        unfold computeRename
        rw [List.findSome?_cons, getD_bind_eq hNA e, he]
      rcases ih with ⟨pre, e0, post, n, hsplit, hpre, he0, hlbl⟩ |
          ⟨hall, hlbl⟩
      · left
        refine ⟨e :: pre, e0, post, n, by rw [hsplit, List.cons_append], ?_,
          he0, by rw [hstep]; exact hlbl⟩
        intro e' he'
        rcases List.mem_cons.mp he' with rfl | h
        · exact he
        · exact hpre e' h
      · right
        refine ⟨?_, by rw [hstep]; exact hlbl⟩
        intro e' he'
        rcases List.mem_cons.mp he' with rfl | h
        · exact he
        · exact hall e' h

/-- Witness for claim C7 at a concrete parser and record sequence. -/
theorem c7_witness :
    (∃ pre e post n, sampleEntries = pre ++ e :: post ∧
      (∀ e' ∈ pre, (lookupA e' "inDB_noTotal").bind sampleParseInt = none) ∧
      (lookupA e "inDB_noTotal").bind sampleParseInt = some n ∧
      computeRename sampleParseInt sampleEntries =
        "inDB_noMutInd (" ++ toString n ++ ")") ∨
    ((∀ e ∈ sampleEntries,
        (lookupA e "inDB_noTotal").bind sampleParseInt = none) ∧
      computeRename sampleParseInt sampleEntries = "inDB_noMutInd") :=
  c7_rename sampleParseInt sampleEntries rfl

/-! ## Claims C8, C9, C10: the write pipeline -/

theorem except_bind_ok_inv {γ α β : Type} {x : Except γ α}
    {f : α → Except γ β} {b : β} (h : (x >>= f) = Except.ok b) :
    ∃ a, x = Except.ok a ∧ f a = Except.ok b := by
  cases x with
  | error e =>
    rw [except_bind_error] at h
    exact absurd h (by simp)
  | ok a => exact ⟨a, rfl, h⟩

theorem mapM_ok_forall₂ {α β : Type} {f : α → Except String β} :
    ∀ {as : List α} {bs : List β},
    as.mapM f = Except.ok bs →
    List.Forall₂ (fun a b => f a = Except.ok b) as bs := by
  intro as
  induction as with
  | nil =>
    intro bs h
    rw [List.mapM_nil] at h
    injection h with h'
    rw [← h']
    exact List.Forall₂.nil
  | cons a as ih =>
    intro bs h
    rw [List.mapM_cons] at h
    cases hf : f a with
    | error e =>
      rw [hf, except_bind_error] at h
      exact absurd h (by simp)
    | ok b =>
      rw [hf, except_bind_ok] at h
      cases hm : as.mapM f with
      | error e =>
        rw [hm, except_bind_error] at h
        exact absurd h (by simp)
      | ok bs' =>
        rw [hm, except_bind_ok] at h
        injection h with h'
        rw [← h']
        exact List.Forall₂.cons hf (ih hm)

theorem igvEntry_ok {l : Line} {s : String}
    (h : igvEntry l = Except.ok s) :
    ∃ chr p gene, lookupA l "CHR" = some chr ∧
      lookupA l "POS" = some (Val.int p) ∧ lookupA l "Gene" = some gene ∧
      s = valStr chr ++ "\t" ++ toString (p - 1) ++ "\t" ++ toString p ++
        "\t" ++ valStr gene ++ "\n" := by
  unfold igvEntry at h
  cases h1 : lookupA l "CHR" with
  | none =>
    rw [h1] at h
    exact absurd h (by simp)
  | some chr =>
    rw [h1] at h
    cases h2 : lookupA l "POS" with
    | none =>
      rw [h2] at h
      exact absurd h (by simp)
    | some pos =>
      rw [h2] at h
      cases pos with
      | str x => exact absurd h (by simp)
      | int n =>
        cases h3 : lookupA l "Gene" with
        | none =>
          rw [h3] at h
          exact absurd h (by simp)
        | some gene =>
          rw [h3] at h
          injection h with h'
          exact ⟨chr, n, gene, rfl, rfl, rfl, h'.symm⟩

theorem igv_forall₂_datas : ∀ {fl : List Line} {ls : List String},
    List.Forall₂ (fun l s => igvEntry l = Except.ok s) fl ls →
    ∃ datas : List (Val × Int × Val),
      List.Forall₂ (fun l d => lookupA l "CHR" = some d.1 ∧
        lookupA l "POS" = some (Val.int d.2.1) ∧
        lookupA l "Gene" = some d.2.2) fl datas ∧
      ls = datas.map (fun d => valStr d.1 ++ "\t" ++ toString (d.2.1 - 1) ++
        "\t" ++ toString d.2.1 ++ "\t" ++ valStr d.2.2 ++ "\n") := by
  intro fl ls h
  induction h with
  | nil => exact ⟨[], List.Forall₂.nil, rfl⟩
  | cons hR hrest ih =>
    obtain ⟨datas, hfa, rfl⟩ := ih
    obtain ⟨chr, p, gene, h1, h2, h3, rfl⟩ := igvEntry_ok hR
    exact ⟨(chr, p, gene) :: datas, List.Forall₂.cons ⟨h1, h2, h3⟩ hfa, rfl⟩

/-- Claim C8: when write succeeds with the igv target given, the igv file
content is exactly one line per row of the filtered (non-common) row set,
in that order, with no header line: each line is the row's CHR value, its
POS value minus one, its POS value, and its Gene value, joined by tabs
with a trailing newline. -/
theorem c8_igv (parse : Val → Option ℚ) (excel tsv igv : Option String)
    (rows : List Line) (out : WriteOut)
    (hw : write parse excel tsv igv rows = Except.ok out)
    (hig : truthy igv = true) :
    ∃ (fl : List Line) (datas : List (Val × Int × Val)),
      filteredOf parse (sortLines rows) = Except.ok fl ∧
      List.Forall₂ (fun l d => lookupA l "CHR" = some d.1 ∧
        lookupA l "POS" = some (Val.int d.2.1) ∧
        lookupA l "Gene" = some d.2.2) fl datas ∧
      out.igvOut = some (String.join (datas.map
        (fun d => valStr d.1 ++ "\t" ++ toString (d.2.1 - 1) ++ "\t" ++
          toString d.2.1 ++ "\t" ++ valStr d.2.2 ++ "\n"))) := by
  unfold write at hw
  rw [hig] at hw
  simp only [Bool.or_true, Bool.true_or, Bool.not_true, Bool.false_eq_true,
    if_false] at hw
  obtain ⟨fl, hfo, hw⟩ := except_bind_ok_inv hw
  obtain ⟨tsvOut, htv2, hw⟩ := except_bind_ok_inv hw
  obtain ⟨igvOut, higv, hw⟩ := except_bind_ok_inv hw
  injection hw with h'
  unfold igvPart at higv
  rw [hig, if_pos rfl] at higv
  cases hmm : fl.mapM igvEntry with
  | error e =>
    rw [hmm] at higv
    exact absurd higv (by simp [Except.map])
  | ok ls =>
    rw [hmm] at higv
    rw [show (Except.ok ls).map (fun ls => some (String.join ls)) =
      Except.ok (some (String.join ls)) from rfl] at higv
    injection higv with h2
    obtain ⟨datas, hfa, rfl⟩ := igv_forall₂_datas (mapM_ok_forall₂ hmm)
    refine ⟨fl, datas, hfo, hfa, ?_⟩
    rw [← h', ← h2]

/-- Witness for claim C8 at a concrete call of write. -/
theorem c8_witness :
    ∃ (fl : List Line) (datas : List (Val × Int × Val)),
      filteredOf sampleParse (sortLines [sampleLine]) = Except.ok fl ∧
      List.Forall₂ (fun l d => lookupA l "CHR" = some d.1 ∧
        lookupA l "POS" = some (Val.int d.2.1) ∧
        lookupA l "Gene" = some d.2.2) fl datas ∧
      (WriteOut.mk false none (some "1\t99\t100\tA\n")).igvOut =
        some (String.join (datas.map
          (fun d => valStr d.1 ++ "\t" ++ toString (d.2.1 - 1) ++ "\t" ++
            toString d.2.1 ++ "\t" ++ valStr d.2.2 ++ "\n"))) :=
  c8_igv sampleParse none none (some "out.igv") [sampleLine]
    (WriteOut.mk false none (some "1\t99\t100\tA\n")) rfl rfl

/-- Claim C9: a call of write with all three output targets falsy fails
with the RuntimeError by the initial guard, producing no output at all
(the error is the entire result of the call). -/
theorem c9_no_output (parse : Val → Option ℚ) (excel tsv igv : Option String)
    (rows : List Line)
    (he : truthy excel = false) (ht : truthy tsv = false)
    (hi : truthy igv = false) :
    write parse excel tsv igv rows =
      Except.error "RuntimeError: You must at least provide one output type." := by
  unfold write
  rw [he, ht, hi]
  rfl

/-- Witness for claim C9 at concrete falsy arguments (absent paths and the
empty string). -/
theorem c9_witness :
    write sampleParse none (some "") none [] =
      Except.error "RuntimeError: You must at least provide one output type." :=
  c9_no_output sampleParse none (some "") none [] rfl rfl rfl

/-- Claim C10: get_rows yields no rows for an empty record sequence, and
write on an empty row list with the tsv target given fails with the
IndexError raised when reading the keys of the first row; no header-only
file is produced. -/
theorem c10_tsv_empty (parse : Val → Option ℚ)
    (excel tsv igv : Option String) (pInt : String → Option Int)
    (ht : truthy tsv = true) :
    get_rows pInt [] = Except.ok [] ∧
    write parse excel tsv igv [] = Except.error "IndexError" := by
  constructor
  · rfl
  · unfold write
    rw [ht]
    simp only [Bool.or_true, Bool.true_or, Bool.not_true, Bool.false_eq_true,
      if_false]
    have htsv : tsvPart tsv (sortLines []) = Except.error "IndexError" := by
      unfold tsvPart
      rw [ht, if_pos rfl]
      rfl
    rw [show filteredOf parse (sortLines ([] : List Line)) =
      Except.ok ([] : List Line) from rfl, except_bind_ok, htsv,
      except_bind_error]

/-- Witness for claim C10 at a concrete call of write. -/
theorem c10_witness :
    get_rows sampleParseInt [] = Except.ok [] ∧
    write sampleParse none (some "out.tsv") none [] =
      Except.error "IndexError" :=
  c10_tsv_empty sampleParse none (some "out.tsv") none sampleParseInt rfl

end ExomeReport
